import Mathlib

set_option maxHeartbeats 1000000

/-!
Shallow embedding of `pqObjectNaming.cxx` (QtTesting): derivation of stable
path names for objects of a Qt object tree and resolution of such names back
to objects.  Names are modelled as `List Char` (QString), the object tree as
a nested inductive, pointer identity as a numeric object id `oid`.
-/

/-- A node of the Qt object tree: object identity (modelling pointer
identity), the `QMetaObject` class name, the explicit `objectName` (empty
when unnamed), whether the object is a `QWidget`, whether it is visible,
and whether it is the `QApplication` singleton. -/
structure Node where
  oid : Nat
  className : List Char
  objectName : List Char
  isWidget : Bool
  visible : Bool
  isApp : Bool
deriving DecidableEq

/-- A Qt object together with its ordered list of children. -/
inductive QTree where
  | mk (node : Node) (children : List QTree)

/-- The node data of a tree. -/
def QTree.node : QTree → Node
  | .mk n _ => n

/-- The ordered children list of a tree (Qt `QObject::children()`). -/
def QTree.children : QTree → List QTree
  | .mk _ cs => cs

/-- The ambient Qt state: the list returned by
`QApplication::topLevelWidgets()` and the `QApplication::instance()`
object (which has no parent and is not in the top-level widget list). -/
structure World where
  topLevel : List QTree
  app : QTree

/-- `QString::replace("/", "|")`: both patterns are single characters, so
the replacement is a character map. -/
def escapeSlash (s : List Char) : List Char :=
  s.map (fun c => if c = '/' then '|' else c)

/-- The sibling-counting loop of `InternalGetNameAsUnnamed` (lines 60-81):
walk the sibling list until the object itself is reached (pointer equality,
modelled by `oid`), counting the preceding unnamed siblings of the same
class name, split into an invisible counter and a visible-widget counter.
Returns `(invisible_index, visible_index)`. -/
def countPrev (n : Node) : List QTree → Nat × Nat
  | [] => (0, 0)
  | t :: rest =>
    if t.node.oid = n.oid then (0, 0)
    else
      let p := countPrev n rest
      if t.node.className = n.className ∧ t.node.objectName = [] then
        if t.node.isWidget ∧ t.node.visible then (p.1, p.2 + 1) else (p.1 + 1, p.2)
      else p

/-- `InternalGetNameAsUnnamed` (lines 37-101): the synthesized name of an
object, computed against its sibling list (the children of its parent, or
the top-level widget list when it has no parent).  A visible widget gets
the marker `'1'` and the visible counter, an invisible widget the marker
`'0'` and the invisible counter; a non-widget gets no marker and the
invisible counter.  Any `'/'` is replaced by `'|'`. -/
def InternalGetNameAsUnnamed (siblings : List QTree) (n : Node) : List Char :=
  let counts := countPrev n siblings
  let pv : List Char × Nat :=
    if n.isWidget then
      if n.visible then (['1'], counts.2) else (['0'], counts.1)
    else ([], counts.1)
  escapeSlash (pv.1 ++ n.className ++ Nat.toDigits 10 pv.2)

/-- `InternalGetName` (lines 106-122): the explicit `objectName` when
non-empty, else the synthesized name; the `QApplication` singleton gets
the suffix `"-app"`; any `'/'` is replaced by `'|'`. -/
def InternalGetName (siblings : List QTree) (n : Node) : List Char :=
  let result := n.objectName
  let result := if result = [] then InternalGetNameAsUnnamed siblings n else result
  let result := if n.isApp then result ++ "-app".toList else result
  escapeSlash result

/-- The sibling list of an object whose ancestor chain (root first) is
`anc`: the children of the last ancestor, or the top-level widget list
when the object has no parent. -/
def sibsOf (w : World) (anc : List QTree) : List QTree :=
  match anc.getLast? with
  | none => w.topLevel
  | some p => p.children

/-- The check of line 146: a parentless ancestor must be a `QWidget` that
is contained (pointer equality, modelled by `oid`) in
`QApplication::topLevelWidgets()`. -/
def rootOk (w : World) (p : QTree) : Bool :=
  p.node.isWidget && w.topLevel.any (fun t => t.node.oid == p.node.oid)

/-- The sibling list of the next element of a reversed ancestor chain:
the children of the following (outer) element, or the top-level widget
list at the root. -/
def headSibs (w : World) (rest : List QTree) : List QTree :=
  match rest with
  | [] => w.topLevel
  | q :: _ => q.children

/-- The parent-walking loop of `pqObjectNaming::GetName` (lines 133-152),
processing the ancestors innermost first (so the input list is the
reversed root-first chain): each ancestor must have a non-empty derived
name, which is prepended with a `'/'` separator; when the outermost
ancestor is reached it must pass the top-level check of line 146. -/
def GetNameAux (w : World) (name : List Char) : List QTree → Option (List Char)
  | [] => some name
  | p :: rest =>
    let pname := InternalGetName (headSibs w rest) p.node
    if pname = [] then none
    else
      let name2 := pname ++ '/' :: name
      if rest.isEmpty && !(rootOk w p) then none
      else GetNameAux w name2 rest

/-- `pqObjectNaming::GetName` (lines 124-155) for an object with ancestor
chain `anc` (root first, object excluded): the empty list models the empty
`QString` returned on failure. -/
def GetName (w : World) (anc : List QTree) (obj : QTree) : List Char :=
  let name := InternalGetName (sibsOf w anc) obj.node
  if name = [] then []
  else
    match GetNameAux w name anc.reverse with
    | some n => n
    | none => []

/-- `QString::split` with a single-character separator and Qt's default
keep-empty-parts behaviour. -/
def splitChar (sep : Char) : List Char → List (List Char)
  | [] => [[]]
  | c :: cs =>
    if c = sep then [] :: splitChar sep cs
    else
      match splitChar sep cs with
      | [] => [[c]]
      | s :: ss => (c :: s) :: ss

/-- A located object: chain of ancestors (root first) plus the object
itself.  Locations let the model recover everything that the C++ code
reaches through `QObject::parent()` pointers. -/
structure Loc where
  anc : List QTree
  tree : QTree

/-- The inner matching scan shared by the top-level search (lines 176-188)
and the child search (lines 196-207): return the first object of `scan`
whose derived name or whose synthesized name (computed against the full
sibling list `siblings`) equals `seg`. -/
def findMatch (siblings : List QTree) (seg : List Char) : List QTree → Option QTree
  | [] => none
  | c :: rest =>
    if InternalGetName siblings c.node = seg ∨ InternalGetNameAsUnnamed siblings c.node = seg
    then some c
    else findMatch siblings seg rest

/-- One child-scan of `pqObjectNaming::GetObject` (lines 190-217) for a
single path segment: first scan all children against the segment; if that
fails and the segment starts with `'0'`, the code sets `objectName[0]='1'`
and `k = 0` at the last loop iteration, and the `++k` of the `for` loop
then restarts the scan at the SECOND child, so the retry with the leading
`'1'` never re-examines the first child. -/
def scanChildren (children : List QTree) (seg : List Char) : Option QTree :=
  match findMatch children seg children with
  | some c => some c
  | none =>
    match children, seg with
    | _ :: rest, '0' :: segTail => findMatch children ('1' :: segTail) rest
    | _, _ => none

/-- The descent loop of `pqObjectNaming::GetObject` (lines 190-217) over
the path segments after the first, tracking the current result and the
deepest object matched so far (`lastObject`). -/
def descendLoop : List (List Char) → Option Loc → Option Loc → Option Loc × Option Loc
  | [], result, last => (result, last)
  | seg :: rest, result, last =>
    let children := match result with
      | some l => l.tree.children
      | none => []
    let childAnc := match result with
      | some l => l.anc ++ [l.tree]
      | none => []
    match scanChildren children seg with
    | some c => descendLoop rest (some ⟨childAnc, c⟩) (some ⟨childAnc, c⟩)
    | none => descendLoop rest none last

/-- `QString::toInt` for base 10 as used on line 233: an optional sign
followed by decimal digits; any other input (including the empty string)
yields `0`. -/
def digitsVal : List Char → Option Nat
  | [] => none
  | [c] => if c.isDigit then some (c.toNat - '0'.toNat) else none
  | c :: rest =>
    if c.isDigit then
      match digitsVal rest with
      | some v => some ((c.toNat - '0'.toNat) * 10 ^ rest.length + v)
      | none => none
    else none

/-- `QString::toInt` (returns 0 when the conversion fails). -/
def qstringToInt (s : List Char) : Int :=
  match s with
  | '-' :: rest =>
    match digitsVal rest with
    | some v => -(v : Int)
    | none => 0
  | '+' :: rest =>
    match digitsVal rest with
    | some v => (v : Int)
    | none => 0
  | _ =>
    match digitsVal s with
    | some v => (v : Int)
    | none => 0

/-- Line 233: the candidate cap, from the `PQOBJECTNAMING_MATCH_LIMIT`
environment variable; an absent or empty value means 20. -/
def matchLimitOf (env : List Char) : Int :=
  if env = [] then 20 else qstringToInt env

mutual

/-- The recursion of `QObject::findChildren` into one object: its own
descendants, with this object appended to the ancestor chain. -/
def findKidsTree (nm : Option (List Char)) : QTree → List QTree → List Loc
  | QTree.mk n cs, anc => findKidsList nm cs (anc ++ [QTree.mk n cs])

/-- `QObject::findChildren` (lines 238 and 252): all strict descendants of
the listed objects, in pre-order (each child is tested before its own
descendants are), keeping those whose explicit `objectName` equals `nm`
(`none` keeps every descendant).  `anc` is the ancestor chain of the
scanned children. -/
def findKidsList (nm : Option (List Char)) : List QTree → List QTree → List Loc
  | [], _ => []
  | QTree.mk n cs :: rest, anc =>
    (match nm with
     | none => [(⟨anc, QTree.mk n cs⟩ : Loc)]
     | some s => if n.objectName = s then [(⟨anc, QTree.mk n cs⟩ : Loc)] else []) ++
    findKidsTree nm (QTree.mk n cs) anc ++
    findKidsList nm rest anc

end

/-- The diagnostic line `Couldn't find object  \`...\`` of line 225. -/
def couldLine (name : List Char) : List Char :=
  "Couldn't find object  `".toList ++ name ++ ['`']

/-- The diagnostic line `Found up to           \`...\`` of line 228. -/
def foundLine (name : List Char) : List Char :=
  "Found up to           `".toList ++ name ++ ['`']

/-- A `Possible match` candidate line (line 241). -/
def possibleLine (name : List Char) : List Char :=
  "    Possible match:   `".toList ++ name ++ ['`']

/-- The `Possible match` truncation line (line 246). -/
def possibleTrunc (n : Nat) : List Char :=
  "    Possible match: .... (and ".toList ++ Nat.toDigits 10 n ++ " more!)".toList

/-- An `Available widget` candidate line (line 255). -/
def availLine (name : List Char) : List Char :=
  "    Available widget: `".toList ++ name ++ ['`']

/-- The `Available widget` truncation line (line 259). -/
def availTrunc (n : Nat) : List Char :=
  "    Available widget: .... (and ".toList ++ Nat.toDigits 10 n ++ " more!)".toList

/-- The advice line printed after either truncation line (lines 247-248
and 260-261; the two adjacent C string literals concatenate). -/
def setEnvLine : List Char :=
  ("    Set PQOBJECTNAMING_MATCH_LIMIT environment var to a +'ve number to limit " ++
   "entries (or 0 for unlimited).").toList

/-- One candidate block of the diagnostic (lines 239-249 for
`Possible match`, 253-262 for `Available widget`): the loop prints a line
for each candidate while `matchLimit <= 0 || cc < matchLimit`, and when
`matchLimit > 0 && matches.size() > matchLimit` it appends the truncation
line and the advice line. -/
def shownLines (w : World) (mkLine : List Char → List Char) (mkTrunc : Nat → List Char)
    (limit : Int) (ms : List Loc) : List (List Char) :=
  let shown := if limit ≤ 0 then ms else ms.take limit.toNat
  let lines := shown.map (fun l => mkLine (GetName w l.anc l.tree))
  if 0 < limit ∧ limit.toNat < ms.length then
    lines ++ [mkTrunc (ms.length - limit.toNat), setEnvLine]
  else lines

/-- The failure diagnostic of `pqObjectNaming::GetObject` (lines 222-264)
as a list of emitted lines: a leading empty line (the bare `"\n"`), the
`Couldn't find object` line, and, when a deepest matched object exists,
the `Found up to` line, the `Possible match` block over the descendants
whose `objectName` equals the last path segment, and, when that block is
empty, the `Available widget` block over all descendants. -/
def buildErrorLines (w : World) (env : List Char) (Name : List Char)
    (names : List (List Char)) (last : Option Loc) : List (List Char) :=
  let limit := matchLimitOf env
  [[], couldLine Name] ++
  match last with
  | none => []
  | some l =>
    let childAnc := l.anc ++ [l.tree]
    let cands := findKidsList (some (names.getLastD [])) l.tree.children childAnc
    [foundLine (GetName w l.anc l.tree)] ++
    shownLines w possibleLine possibleTrunc limit cands ++
    if cands.isEmpty then
      shownLines w availLine availTrunc limit (findKidsList none l.tree.children childAnc)
    else []

/-- A line list flattened back to the flat `QTextStream` text (every
emitted chunk ends with a newline). -/
def linesText (lines : List (List Char)) : List Char :=
  lines.flatMap (fun l => l ++ ['\n'])

/-- `pqObjectNaming::GetObject` (lines 157-266) together with the
process-wide `ErrorMessage` state (line 33): takes the current state and
returns the resolved object and the new state.  An empty name and the
`QApplication` fast path return without touching the state; a successful
resolution returns before the diagnostic is built; only a failed
resolution clears and rewrites the state. -/
def GetObjectE (w : World) (env : List Char) (err : List Char) (Name : List Char) :
    Option QTree × List Char :=
  if Name = [] then (none, err)
  else
    let names := splitChar '/' Name
    if InternalGetName w.topLevel w.app.node = Name then (some w.app, err)
    else
      let first := findMatch w.topLevel (names.headD []) w.topLevel
      let firstLoc := first.map (fun t => (⟨[], t⟩ : Loc))
      let rl := descendLoop names.tail firstLoc firstLoc
      match rl.1 with
      | some l => (some l.tree, err)
      | none => (none, linesText (buildErrorLines w env Name names rl.2))

/-- `pqObjectNaming::GetObject` viewed as a pure resolver (the returned
`QObject*`). -/
def GetObject (w : World) (Name : List Char) : Option QTree :=
  (GetObjectE w [] [] Name).1

/-- `pqObjectNaming::lastErrorMessage` (lines 288-291). -/
def lastErrorMessage (err : List Char) : List Char := err

/-- The recursive `pqObjectNaming::DumpHierarchy(QObject&, QStringList&)`
(lines 277-286): the object's own full name followed by the dumps of its
children in sibling order. -/
def DumpHierarchyFrom (w : World) (anc : List QTree) : QTree → List (List Char)
  | QTree.mk n cs =>
    GetName w anc (QTree.mk n cs) :: DumpHierarchyList w (anc ++ [QTree.mk n cs]) cs
where
  /-- Dump of a list of siblings, in order. -/
  DumpHierarchyList (w : World) (anc : List QTree) : List QTree → List (List Char)
    | [] => []
    | t :: ts => DumpHierarchyFrom w anc t ++ DumpHierarchyList w anc ts

/-- `pqObjectNaming::DumpHierarchy(QStringList&)` (lines 268-275): dump of
every top-level widget. -/
def DumpHierarchy (w : World) : List (List Char) :=
  DumpHierarchyFrom.DumpHierarchyList w [] w.topLevel

mutual

/-- Number of objects in a tree. -/
def QTree.size : QTree → Nat
  | QTree.mk _ cs => 1 + sizeList cs

/-- Number of objects in a forest. -/
def sizeList : List QTree → Nat
  | [] => 0
  | t :: ts => QTree.size t + sizeList ts

end

/-- Subtree of a tree at a child-index path. -/
def QTree.atPath : QTree → List Nat → Option QTree
  | t, [] => some t
  | t, k :: rest =>
    match t.children[k]? with
    | some c => c.atPath rest
    | none => none

/-- Ancestor chain (root first, target excluded) of the object at a
child-index path below `t`. -/
def QTree.ancPath : QTree → List Nat → Option (List QTree)
  | _, [] => some []
  | t, k :: rest =>
    match t.children[k]? with
    | some c => (c.ancPath rest).map (t :: ·)
    | none => none

/-- Derived-name segments of an ancestor chain strictly below the parent
`p`: the names of `a₁, …, aₘ, x` where each element is named against the
children list of its predecessor (starting with `p.children`). -/
def chainSegsUnder (p : QTree) : List QTree → QTree → List (List Char)
  | [], x => [InternalGetName p.children x.node]
  | a :: rest, x => InternalGetName p.children a.node :: chainSegsUnder a rest x

/-- Derived-name segments of a full chain `anc ++ [x]`: the root (or `x`
itself when `anc = []`) is named against the top-level widget list, every
later element against the children of its predecessor. -/
def chainSegs (w : World) : List QTree → QTree → List (List Char)
  | [], x => [InternalGetName w.topLevel x.node]
  | a :: rest, x => InternalGetName w.topLevel a.node :: chainSegsUnder a rest x

/-- Derived-name segments along a child-index path below `p` (the name of
each visited child, computed against its sibling list). -/
def pathSegsUnder (p : QTree) : List Nat → List (List Char)
  | [] => []
  | k :: rest =>
    match p.children[k]? with
    | some c => InternalGetName p.children c.node :: pathSegsUnder c rest
    | none => []

/-- Join of path segments with the `'/'` separator (inverse of
`splitChar '/'` for slash-free segments). -/
def joinSegs : List (List Char) → List Char
  | [] => []
  | [s] => s
  | s :: rest => s ++ '/' :: joinSegs rest

/-- Names produced by `GetNameAux` along a reversed ancestor chain, in
root-first order. -/
def revAncNames (w : World) : List QTree → List (List Char)
  | [] => []
  | p :: rest => revAncNames w rest ++ [InternalGetName (headSibs w rest) p.node]

/-- The sibling list of the next element of a reversed chain hanging
below `top`. -/
def headSibsU (top : QTree) (rest : List QTree) : List QTree :=
  match rest with
  | [] => top.children
  | q :: _ => q.children

/-- Names produced along a reversed chain that hangs below the object
`top` (the deepest element is named against `top.children`). -/
def revAncNamesUnder (top : QTree) : List QTree → List (List Char)
  | [] => []
  | p :: rest =>
    revAncNamesUnder top rest ++ [InternalGetName (headSibsU top rest) p.node]

/-- No earlier sibling shadows the object along a child-index path: at
each level, no child preceding the path child has a derived name or a
synthesized name equal to the path child's derived name (the resolver
takes the first match). -/
def noShadowDesc : QTree → List Nat → Bool
  | _, [] => true
  | cur, k :: rest =>
    match cur.children[k]? with
    | none => false
    | some c =>
      let seg := InternalGetName cur.children c.node
      ((cur.children.take k).all fun t =>
        !(InternalGetName cur.children t.node == seg) &&
        !(InternalGetNameAsUnnamed cur.children t.node == seg)) &&
      noShadowDesc c rest

/-- No earlier top-level widget shadows the root at index `i`. -/
def noShadowTop (w : World) (i : Nat) : Bool :=
  match w.topLevel[i]? with
  | none => false
  | some r =>
    let seg := InternalGetName w.topLevel r.node
    (w.topLevel.take i).all fun t =>
      !(InternalGetName w.topLevel t.node == seg) &&
      !(InternalGetNameAsUnnamed w.topLevel t.node == seg)

/-- Whether `tag` is an initial run of `l`. -/
def hasTag : List Char → List Char → Bool
  | [], _ => true
  | _ :: _, [] => false
  | a :: as, b :: bs => a == b && hasTag as bs

/-- Number of lines that start with the given tag. -/
def countTagged (tag : List Char) (lines : List (List Char)) : Nat :=
  (lines.filter (hasTag tag)).length

/-- The sibling context of the object hanging below `a :: rest`. -/
def sibsOfU (a : QTree) (rest : List QTree) : List QTree :=
  match rest.getLast? with
  | none => a.children
  | some p => p.children

/-- The class of siblings counted together with an unnamed object of node
data `n`: same class name, unnamed, and the same visibility class
(`visClass` is `true` for visible widgets, `false` for everything else). -/
def prevClassPred (n : Node) (visClass : Bool) (t : QTree) : Bool :=
  t.node.className == n.className && t.node.objectName == [] &&
  ((t.node.isWidget && t.node.visible) == visClass)

/-- Siblings of the same type tag, unnamed, and in the same visibility
class (`vc` is `true` for visible widgets). -/
def sameClassUnnamed (T : List Char) (vc : Bool) (t : QTree) : Bool :=
  t.node.className == T && t.node.objectName == [] &&
  ((t.node.isWidget && t.node.visible) == vc)

/-- The fixed leading text of a shown `Possible match` line. -/
def possibleTag : List Char := "    Possible match:   `".toList

/-- A short marker shared by both `Possible match` line shapes. -/
def possibleShort : List Char := "    Possible".toList

/-- The `QApplication` singleton used by the example worlds. -/
def appT : QTree := QTree.mk ⟨0, "QApplication".toList, "app".toList, false, false, true⟩ []

/-- An unnamed visible push button. -/
def btn : QTree := QTree.mk ⟨2, "QPushButton".toList, [], true, true, false⟩ []

/-- A named top-level window holding the unnamed button. -/
def wTop : QTree := QTree.mk ⟨1, "QWidget".toList, "W".toList, true, true, false⟩ [btn]

/-- Example world: one top-level window with one unnamed child. -/
def w1 : World := ⟨[wTop], appT⟩

/-- First of two top-level windows sharing the explicit name "A". -/
def topA1 : QTree := QTree.mk ⟨1, "QWidget".toList, "A".toList, true, true, false⟩ []

/-- Second of two top-level windows sharing the explicit name "A". -/
def topA2 : QTree := QTree.mk ⟨2, "QWidget".toList, "A".toList, true, true, false⟩ []

/-- World with two identically named top-level windows. -/
def wDup : World := ⟨[topA1, topA2], appT⟩

/-- An unnamed non-widget object (a `QAction`). -/
def actN : Node := ⟨21, "QAction".toList, [], false, false, false⟩

/-- The tree holding only the unnamed non-widget. -/
def actT : QTree := QTree.mk actN []

/-- Unnamed invisible push buttons for the ordinal example. -/
def ibtn (i : Nat) : QTree :=
  QTree.mk ⟨30 + i, "QPushButton".toList, [], true, false, false⟩ []

/-- An unnamed invisible push button. -/
def btnI : QTree := QTree.mk ⟨3, "QPushButton".toList, [], true, false, false⟩ []

/-- A named top-level window holding the invisible button. -/
def wTopI : QTree := QTree.mk ⟨4, "QWidget".toList, "W".toList, true, true, false⟩ [btnI]

/-- World whose only candidate child is invisible. -/
def wInv : World := ⟨[wTopI], appT⟩

/-- Leaf children and parent for the hierarchy-dump example. -/
def leafA : QTree := QTree.mk ⟨41, "QWidget".toList, "a".toList, true, true, false⟩ []

/-- Second leaf child for the hierarchy-dump example. -/
def leafB : QTree := QTree.mk ⟨42, "QWidget".toList, "b".toList, true, true, false⟩ []

/-- Parent window for the hierarchy-dump example. -/
def parentW : QTree :=
  QTree.mk ⟨40, "QWidget".toList, "P".toList, true, true, false⟩ [leafA, leafB]

/-- World for the hierarchy-dump example. -/
def w7 : World := ⟨[parentW], appT⟩

/-- A location used by the diagnostic-cap witnesses. -/
def witLoc : Loc := ⟨[], wTop⟩

/-! Basic facts about the name builders. -/

theorem toDigitsCore_ne_nil (b : Nat) :
    ∀ (fuel n : Nat) (acc : List Char), acc ≠ [] → Nat.toDigitsCore b fuel n acc ≠ [] := by
  intro fuel
  induction fuel with
  | zero => intro n acc h; simpa [Nat.toDigitsCore] using h
  | succ f ih =>
    intro n acc h
    show (if n / b = 0 then (n % b).digitChar :: acc
          else Nat.toDigitsCore b f (n / b) ((n % b).digitChar :: acc)) ≠ []
    by_cases hz : n / b = 0
    · simp [hz]
    · rw [if_neg hz]
      exact ih _ _ (by simp)

theorem toDigits_ne_nil (b n : Nat) : Nat.toDigits b n ≠ [] := by
  show (if n / b = 0 then (n % b).digitChar :: []
        else Nat.toDigitsCore b n (n / b) ((n % b).digitChar :: [])) ≠ []
  by_cases hz : n / b = 0
  · simp [hz]
  · rw [if_neg hz]
    exact toDigitsCore_ne_nil b _ _ _ (by simp)

theorem escapeSlash_eq_nil_iff (s : List Char) : escapeSlash s = [] ↔ s = [] := by
  simp [escapeSlash]

theorem InternalGetNameAsUnnamed_ne_nil (sibs : List QTree) (n : Node) :
    InternalGetNameAsUnnamed sibs n ≠ [] := by
  unfold InternalGetNameAsUnnamed
  intro h
  rw [escapeSlash_eq_nil_iff] at h
  rcases List.append_eq_nil.mp h with ⟨-, h2⟩
  exact toDigits_ne_nil 10 _ h2

theorem InternalGetName_ne_nil (sibs : List QTree) (n : Node) :
    InternalGetName sibs n ≠ [] := by
  unfold InternalGetName
  intro h
  rw [escapeSlash_eq_nil_iff] at h
  by_cases happ : n.isApp
  · rw [if_pos happ] at h
    rcases List.append_eq_nil.mp h with ⟨-, h2⟩
    simp at h2
  · rw [if_neg happ] at h
    by_cases hempty : n.objectName = []
    · rw [if_pos hempty] at h
      exact InternalGetNameAsUnnamed_ne_nil sibs n h
    · rw [if_neg hempty] at h
      exact hempty h

theorem escapeSlash_no_slash (s : List Char) : '/' ∉ escapeSlash s := by
  simp only [escapeSlash, List.mem_map]
  rintro ⟨c, -, hc⟩
  by_cases h : c = '/' <;> simp [h] at hc

theorem InternalGetName_no_slash (sibs : List QTree) (n : Node) :
    '/' ∉ InternalGetName sibs n := by
  unfold InternalGetName
  exact escapeSlash_no_slash _

/-! Facts about `splitChar` and `joinSegs`. -/

theorem splitChar_ne_nil (sep : Char) (s : List Char) : splitChar sep s ≠ [] := by
  induction s with
  | nil => simp [splitChar]
  | cons c cs ih =>
    unfold splitChar
    by_cases h : c = sep
    · simp [h]
    · simp only [h, if_false]
      cases hs : splitChar sep cs with
      | nil => simp
      | cons a as => simp

theorem splitChar_of_no_sep (sep : Char) (s : List Char) (h : sep ∉ s) :
    splitChar sep s = [s] := by
  induction s with
  | nil => simp [splitChar]
  | cons c cs ih =>
    have hc : c ≠ sep := fun hc => h (hc ▸ List.mem_cons_self c cs)
    have hcs : sep ∉ cs := fun hm => h (List.mem_cons_of_mem c hm)
    unfold splitChar
    simp only [hc, if_false]
    rw [ih hcs]

theorem splitChar_cons_ne (sep c : Char) (cs : List Char) (h : c ≠ sep) :
    splitChar sep (c :: cs) =
      match splitChar sep cs with
      | [] => [[c]]
      | s :: ss => (c :: s) :: ss := by
  show (if c = sep then [] :: splitChar sep cs
        else match splitChar sep cs with
             | [] => [[c]]
             | s :: ss => (c :: s) :: ss) = _
  rw [if_neg h]

theorem splitChar_append (sep : Char) (s r : List Char) (h : sep ∉ s) :
    splitChar sep (s ++ sep :: r) = s :: splitChar sep r := by
  induction s with
  | nil => simp [splitChar]
  | cons c cs ih =>
    have hc : c ≠ sep := fun hc => h (hc ▸ List.mem_cons_self c cs)
    have hcs : sep ∉ cs := fun hm => h (List.mem_cons_of_mem c hm)
    rw [List.cons_append, splitChar_cons_ne sep c _ hc, ih hcs]

theorem joinSegs_snoc (l : List (List Char)) (b : List Char) :
    joinSegs (l ++ [b]) = l.foldr (fun s acc => s ++ '/' :: acc) b := by
  induction l with
  | nil => rfl
  | cons s l ih =>
    cases l with
    | nil => rfl
    | cons t l2 =>
      have step : joinSegs ((s :: t :: l2) ++ [b]) =
          s ++ '/' :: joinSegs ((t :: l2) ++ [b]) := rfl
      rw [step, ih]
      rfl

theorem splitChar_joinSegs (segs : List (List Char)) (hne : segs ≠ [])
    (h : ∀ s ∈ segs, '/' ∉ s) : splitChar '/' (joinSegs segs) = segs := by
  induction segs with
  | nil => exact absurd rfl hne
  | cons s rest ih =>
    cases rest with
    | nil => exact splitChar_of_no_sep '/' s (h s (List.mem_cons_self s []))
    | cons t r2 =>
      have hs : '/' ∉ s := h s (List.mem_cons_self _ _)
      have hrest : ∀ u ∈ t :: r2, '/' ∉ u := fun u hu => h u (List.mem_cons_of_mem _ hu)
      show splitChar '/' (s ++ '/' :: joinSegs (t :: r2)) = s :: (t :: r2)
      rw [splitChar_append '/' s _ hs, ih (by simp) hrest]

/-! Characterization of `GetName`: success condition and produced value. -/

theorem getNameAux_eq_some (w : World) :
    ∀ (revAnc : List QTree) (nm out : List Char),
      GetNameAux w nm revAnc = some out →
      out = (revAncNames w revAnc).foldr (fun s acc => s ++ '/' :: acc) nm := by
  intro revAnc
  induction revAnc with
  | nil =>
    intro nm out h
    simp only [GetNameAux, Option.some.injEq] at h
    simp [revAncNames, ← h]
  | cons p rest ih =>
    intro nm out h
    simp only [GetNameAux] at h
    rw [if_neg (InternalGetName_ne_nil _ _)] at h
    split at h
    · exact absurd h (by simp)
    · have hout := ih _ _ h
      have hrw : revAncNames w (p :: rest) =
          revAncNames w rest ++ [InternalGetName (headSibs w rest) p.node] := rfl
      rw [hrw, List.foldr_append]
      simpa using hout

theorem getNameAux_eq_none_iff (w : World) :
    ∀ (revAnc : List QTree) (nm : List Char),
      GetNameAux w nm revAnc = none ↔
        ∃ r, revAnc.getLast? = some r ∧ rootOk w r = false := by
  intro revAnc
  induction revAnc with
  | nil => intro nm; simp [GetNameAux]
  | cons p rest ih =>
    intro nm
    simp only [GetNameAux]
    rw [if_neg (InternalGetName_ne_nil _ _)]
    cases rest with
    | nil =>
      cases hro : rootOk w p <;> simp [hro, GetNameAux]
    | cons q rest2 =>
      simp only [List.isEmpty_cons, Bool.false_and, Bool.false_eq_true, if_false]
      rw [ih]
      rw [List.getLast?_cons_cons]

theorem foldrSeg_ne_nil (l : List (List Char)) (b : List Char) (hb : b ≠ []) :
    l.foldr (fun s acc => s ++ '/' :: acc) b ≠ [] := by
  cases l with
  | nil => simpa
  | cons s l2 => simp

theorem sibsOf_cons (w : World) (a : QTree) (rest : List QTree) :
    sibsOf w (a :: rest) = sibsOfU a rest := by
  cases rest with
  | nil => rfl
  | cons q rest2 =>
    unfold sibsOf sibsOfU
    rw [List.getLast?_cons_cons]
    cases hl : (q :: rest2).getLast? with
    | none => simp at hl
    | some c => rfl

theorem sibsOfU_cons (a b : QTree) (rest2 : List QTree) :
    sibsOfU a (b :: rest2) = sibsOfU b rest2 := by
  cases rest2 with
  | nil => rfl
  | cons q rest3 =>
    unfold sibsOfU
    rw [List.getLast?_cons_cons]
    cases hl : (q :: rest3).getLast? with
    | none => simp at hl
    | some c => rfl

theorem revAncNamesUnder_snoc (top : QTree) (l : List QTree) (a : QTree) :
    revAncNamesUnder top (l ++ [a]) =
      InternalGetName top.children a.node :: revAncNamesUnder a l := by
  induction l with
  | nil => rfl
  | cons p l2 ih =>
    rw [List.cons_append]
    simp only [revAncNamesUnder]
    rw [ih]
    cases l2 with
    | nil => rfl
    | cons q l3 => rfl

theorem revAncNames_snoc (w : World) (l : List QTree) (a : QTree) :
    revAncNames w (l ++ [a]) =
      InternalGetName w.topLevel a.node :: revAncNamesUnder a l := by
  induction l with
  | nil => rfl
  | cons p l2 ih =>
    rw [List.cons_append]
    simp only [revAncNames]
    rw [ih]
    cases l2 with
    | nil => rfl
    | cons q l3 => rfl

theorem chainSegsUnder_eq_rev (a : QTree) :
    ∀ (rest : List QTree) (x : QTree),
      chainSegsUnder a rest x =
        revAncNamesUnder a rest.reverse ++ [InternalGetName (sibsOfU a rest) x.node] := by
  intro rest
  induction rest generalizing a with
  | nil => intro x; rfl
  | cons b rest2 ih =>
    intro x
    show InternalGetName a.children b.node :: chainSegsUnder b rest2 x = _
    rw [List.reverse_cons, revAncNamesUnder_snoc, sibsOfU_cons, ih b x]
    rfl

theorem chainSegs_eq_rev (w : World) (anc : List QTree) (x : QTree) :
    chainSegs w anc x =
      revAncNames w anc.reverse ++ [InternalGetName (sibsOf w anc) x.node] := by
  cases anc with
  | nil => rfl
  | cons a rest =>
    show InternalGetName w.topLevel a.node :: chainSegsUnder a rest x = _
    rw [List.reverse_cons, revAncNames_snoc, sibsOf_cons, chainSegsUnder_eq_rev a rest x]
    rfl

theorem getName_eq_join (w : World) (anc : List QTree) (x : QTree)
    (h : GetName w anc x ≠ []) :
    GetName w anc x = joinSegs (chainSegs w anc x) := by
  unfold GetName at h ⊢
  rw [if_neg (InternalGetName_ne_nil _ _)] at h ⊢
  cases haux : GetNameAux w (InternalGetName (sibsOf w anc) x.node) anc.reverse with
  | none =>
    rw [haux] at h
    exact absurd rfl h
  | some out =>
    have hout := getNameAux_eq_some w _ _ _ haux
    show out = joinSegs (chainSegs w anc x)
    rw [chainSegs_eq_rev, joinSegs_snoc]
    exact hout

theorem getName_eq_nil_iff (w : World) (anc : List QTree) (x : QTree) :
    GetName w anc x = [] ↔ ∃ r, anc.head? = some r ∧ rootOk w r = false := by
  unfold GetName
  rw [if_neg (InternalGetName_ne_nil _ _)]
  cases haux : GetNameAux w (InternalGetName (sibsOf w anc) x.node) anc.reverse with
  | none =>
    constructor
    · intro _
      have := (getNameAux_eq_none_iff w _ _).mp haux
      rwa [List.getLast?_reverse] at this
    · intro _
      rfl
  | some out =>
    have hout := getNameAux_eq_some w _ _ _ haux
    constructor
    · intro hnil
      have hnil2 : out = [] := hnil
      rw [hout] at hnil2
      exact absurd hnil2
        (foldrSeg_ne_nil _ _ (InternalGetName_ne_nil (sibsOf w anc) x.node))
    · rintro ⟨r, hr, hro⟩
      have hnone : GetNameAux w (InternalGetName (sibsOf w anc) x.node) anc.reverse = none :=
        (getNameAux_eq_none_iff w _ _).mpr ⟨r, by rwa [List.getLast?_reverse], hro⟩
      rw [haux] at hnone
      exact absurd hnone (by simp)

/-! Resolution lemmas: the scans return the first matching object. -/

theorem findMatch_first (ctx : List QTree) (seg : List Char) :
    ∀ (l1 : List QTree) (c : QTree) (l2 : List QTree),
      (∀ t ∈ l1, InternalGetName ctx t.node ≠ seg ∧ InternalGetNameAsUnnamed ctx t.node ≠ seg) →
      InternalGetName ctx c.node = seg →
      findMatch ctx seg (l1 ++ c :: l2) = some c := by
  intro l1
  induction l1 with
  | nil =>
    intro c l2 _ hc
    simp only [List.nil_append, findMatch]
    rw [if_pos (Or.inl hc)]
  | cons t l1 ih =>
    intro c l2 hno hc
    have ht := hno t (List.mem_cons_self _ _)
    simp only [List.cons_append, findMatch]
    rw [if_neg (by rintro (h | h); exacts [ht.1 h, ht.2 h])]
    exact ih c l2 (fun u hu => hno u (List.mem_cons_of_mem _ hu)) hc

theorem scanChildren_of_findMatch (children : List QTree) (seg : List Char) (c : QTree)
    (h : findMatch children seg children = some c) :
    scanChildren children seg = some c := by
  unfold scanChildren
  rw [h]

/-- Bool-level no-shadow hypothesis unpacked to propositional form. -/
theorem noShadow_all_unpack (ctx : List QTree) (seg : List Char) (l : List QTree)
    (h : (l.all fun t =>
      !(InternalGetName ctx t.node == seg) &&
      !(InternalGetNameAsUnnamed ctx t.node == seg)) = true) :
    ∀ t ∈ l, InternalGetName ctx t.node ≠ seg ∧ InternalGetNameAsUnnamed ctx t.node ≠ seg := by
  intro t ht
  have := List.all_eq_true.mp h t ht
  rw [Bool.and_eq_true] at this
  rcases this with ⟨h1, h2⟩
  constructor
  · intro he
    rw [he] at h1
    simp at h1
  · intro he
    rw [he] at h2
    simp at h2

theorem getElem?_decomp {α : Type} (l : List α) (k : Nat) (c : α) (h : l[k]? = some c) :
    l = l.take k ++ c :: l.drop (k + 1) := by
  have hk : k < l.length := by
    by_contra hge
    rw [List.getElem?_eq_none (Nat.le_of_not_lt hge)] at h
    exact absurd h (by simp)
  have hget : l[k] = c := by
    have := List.getElem?_eq_getElem hk
    rw [h] at this
    exact (Option.some.injEq _ _ ▸ this.symm)
  calc l = l.take k ++ l.drop k := (List.take_append_drop k l).symm
    _ = l.take k ++ c :: l.drop (k + 1) := by rw [List.drop_eq_getElem_cons hk, hget]

theorem descendLoop_path :
    ∀ (path : List Nat) (cur : QTree) (A : List QTree) (last : Option Loc) (x : QTree),
      noShadowDesc cur path = true →
      cur.atPath path = some x →
      ((descendLoop (pathSegsUnder cur path) (some ⟨A, cur⟩) last).1).map Loc.tree = some x := by
  intro path
  induction path with
  | nil =>
    intro cur A last x _ hx
    simp only [QTree.atPath, Option.some.injEq] at hx
    simp [pathSegsUnder, descendLoop, hx]
  | cons k rest ih =>
    intro cur A last x hns hx
    rw [QTree.atPath] at hx
    unfold noShadowDesc at hns
    cases hck : cur.children[k]? with
    | none => rw [hck] at hx; exact absurd hx (by simp)
    | some c =>
      simp only [hck] at hx hns
      rw [Bool.and_eq_true] at hns
      rcases hns with ⟨hall, hrest⟩
      have hseg : findMatch cur.children (InternalGetName cur.children c.node) cur.children
          = some c := by
        have hdec := getElem?_decomp cur.children k c hck
        calc findMatch cur.children (InternalGetName cur.children c.node) cur.children
            = findMatch cur.children (InternalGetName cur.children c.node)
                (cur.children.take k ++ c :: cur.children.drop (k + 1)) := by rw [← hdec]
          _ = some c :=
            findMatch_first _ _ _ _ _ (noShadow_all_unpack _ _ _ hall) rfl
      have hscan := scanChildren_of_findMatch _ _ _ hseg
      have hps : pathSegsUnder cur (k :: rest) =
          InternalGetName cur.children c.node :: pathSegsUnder c rest := by
        simp only [pathSegsUnder, hck]
      rw [hps]
      simp only [descendLoop]
      rw [hscan]
      exact ih c (A ++ [cur]) _ x hrest hx

/-! Segment chains along a valid path. -/

theorem chainSegsUnder_path (x : QTree) :
    ∀ (rest : List Nat) (p c : QTree) (anc2 : List QTree),
      c.ancPath rest = some anc2 →
      c.atPath rest = some x →
      chainSegsUnder p anc2 x =
        InternalGetName p.children c.node :: pathSegsUnder c rest := by
  intro rest
  induction rest with
  | nil =>
    intro p c anc2 ha hx
    simp only [QTree.ancPath, Option.some.injEq] at ha
    simp only [QTree.atPath, Option.some.injEq] at hx
    rw [← ha, ← hx]
    rfl
  | cons k rest2 ih =>
    intro p c anc2 ha hx
    rw [QTree.ancPath] at ha
    rw [QTree.atPath] at hx
    cases hck : c.children[k]? with
    | none => rw [hck] at ha; exact absurd ha (by simp)
    | some d =>
      rw [hck] at ha hx
      have ha2 : (d.ancPath rest2).map (c :: ·) = some anc2 := ha
      have hx2 : d.atPath rest2 = some x := hx
      cases had : d.ancPath rest2 with
      | none => rw [had] at ha2; exact absurd ha2 (by simp)
      | some anc3 =>
        rw [had] at ha2
        simp only [Option.map_some', Option.some.injEq] at ha2
        rw [← ha2]
        show InternalGetName p.children c.node :: chainSegsUnder c anc3 x = _
        rw [ih c d anc3 had hx2]
        have hps : pathSegsUnder c (k :: rest2) =
            InternalGetName c.children d.node :: pathSegsUnder d rest2 := by
          simp only [pathSegsUnder, hck]
        rw [hps]

theorem chainSegs_path (w : World) (r x : QTree) (path : List Nat) (anc : List QTree)
    (ha : r.ancPath path = some anc) (hx : r.atPath path = some x) :
    chainSegs w anc x = InternalGetName w.topLevel r.node :: pathSegsUnder r path := by
  cases path with
  | nil =>
    simp only [QTree.ancPath, Option.some.injEq] at ha
    simp only [QTree.atPath, Option.some.injEq] at hx
    rw [← ha, ← hx]
    rfl
  | cons k rest =>
    rw [QTree.ancPath] at ha
    rw [QTree.atPath] at hx
    cases hck : r.children[k]? with
    | none => rw [hck] at ha; exact absurd ha (by simp)
    | some c =>
      rw [hck] at ha hx
      have ha2 : (c.ancPath rest).map (r :: ·) = some anc := ha
      have hx2 : c.atPath rest = some x := hx
      cases hac : c.ancPath rest with
      | none => rw [hac] at ha2; exact absurd ha2 (by simp)
      | some anc2 =>
        rw [hac] at ha2
        simp only [Option.map_some', Option.some.injEq] at ha2
        rw [← ha2]
        show InternalGetName w.topLevel r.node :: chainSegsUnder r anc2 x = _
        rw [chainSegsUnder_path x rest r c anc2 hac hx2]
        have hps : pathSegsUnder r (k :: rest) =
            InternalGetName r.children c.node :: pathSegsUnder c rest := by
          simp only [pathSegsUnder, hck]
        rw [hps]

theorem chainSegsUnder_no_slash (rest : List QTree) :
    ∀ (a x : QTree) (s : List Char), s ∈ chainSegsUnder a rest x → '/' ∉ s := by
  induction rest with
  | nil =>
    intro a x s hs
    simp only [chainSegsUnder, List.mem_singleton] at hs
    rw [hs]
    exact InternalGetName_no_slash _ _
  | cons b rest2 ih =>
    intro a x s hs
    simp only [chainSegsUnder, List.mem_cons] at hs
    rcases hs with hs | hs
    · rw [hs]; exact InternalGetName_no_slash _ _
    · exact ih b x s hs

theorem chainSegs_no_slash (w : World) (anc : List QTree) (x : QTree) :
    ∀ s ∈ chainSegs w anc x, '/' ∉ s := by
  cases anc with
  | nil =>
    intro s hs
    simp only [chainSegs, List.mem_singleton] at hs
    rw [hs]
    exact InternalGetName_no_slash _ _
  | cons a rest =>
    intro s hs
    simp only [chainSegs, List.mem_cons] at hs
    rcases hs with hs | hs
    · rw [hs]; exact InternalGetName_no_slash _ _
    · exact chainSegsUnder_no_slash rest a x s hs

theorem chainSegs_ne_nil (w : World) (anc : List QTree) (x : QTree) :
    chainSegs w anc x ≠ [] := by
  cases anc <;> simp [chainSegs]

theorem findMatch_top (w : World) (i : Nat) (r : QTree)
    (hr : w.topLevel[i]? = some r)
    (htop : noShadowTop w i = true) :
    findMatch w.topLevel (InternalGetName w.topLevel r.node) w.topLevel = some r := by
  unfold noShadowTop at htop
  rw [hr] at htop
  have htop2 : ((w.topLevel.take i).all fun t =>
      !(InternalGetName w.topLevel t.node == InternalGetName w.topLevel r.node) &&
      !(InternalGetNameAsUnnamed w.topLevel t.node ==
        InternalGetName w.topLevel r.node)) = true := htop
  have hdec := getElem?_decomp w.topLevel i r hr
  calc findMatch w.topLevel (InternalGetName w.topLevel r.node) w.topLevel
      = findMatch w.topLevel (InternalGetName w.topLevel r.node)
          (w.topLevel.take i ++ r :: w.topLevel.drop (i + 1)) := by rw [← hdec]
    _ = some r := findMatch_first _ _ _ _ _ (noShadow_all_unpack _ _ _ htop2) rfl

/-- Resolution of a freshly recorded name: the full round trip, provided
no earlier sibling (or earlier top-level widget) shadows any segment of
the path and the name is not the application object's name. -/
theorem getObjectE_roundtrip (w : World) (env err : List Char) (i : Nat) (path : List Nat)
    (r x : QTree) (anc : List QTree)
    (hr : w.topLevel[i]? = some r)
    (ha : r.ancPath path = some anc)
    (hx : r.atPath path = some x)
    (hn : GetName w anc x ≠ [])
    (happ : InternalGetName w.topLevel w.app.node ≠ GetName w anc x)
    (htop : noShadowTop w i = true)
    (hdesc : noShadowDesc r path = true) :
    (GetObjectE w env err (GetName w anc x)).1 = some x := by
  have h1 : GetName w anc x = joinSegs (chainSegs w anc x) := getName_eq_join w anc x hn
  have h2 : chainSegs w anc x =
      InternalGetName w.topLevel r.node :: pathSegsUnder r path :=
    chainSegs_path w r x path anc ha hx
  have hsplit : splitChar '/' (GetName w anc x) =
      InternalGetName w.topLevel r.node :: pathSegsUnder r path := by
    rw [h1, splitChar_joinSegs _ (chainSegs_ne_nil w anc x) (chainSegs_no_slash w anc x), h2]
  unfold GetObjectE
  rw [if_neg hn, if_neg happ, hsplit]
  simp only [List.headD_cons, List.tail_cons, findMatch_top w i r hr htop, Option.map_some']
  have hdl := descendLoop_path path r [] (some ⟨[], r⟩) x hdesc hx
  cases hres : (descendLoop (pathSegsUnder r path) (some ⟨[], r⟩) (some ⟨[], r⟩)).1 with
  | none => rw [hres] at hdl; exact absurd hdl (by simp)
  | some l =>
    rw [hres] at hdl
    simp only [Option.map_some', Option.some.injEq] at hdl
    simp only [hres]
    exact congrArg some hdl

/-! Ordinal counting for synthesized names. -/

theorem countPrev_split (x : QTree) :
    ∀ (pre post : List QTree),
      x.node.oid ∉ pre.map (fun t => t.node.oid) →
      countPrev x.node (pre ++ x :: post) =
        ((pre.filter (prevClassPred x.node false)).length,
         (pre.filter (prevClassPred x.node true)).length) := by
  intro pre
  induction pre with
  | nil =>
    intro post _
    simp [countPrev]
  | cons t pre2 ih =>
    intro post hfresh
    have hne : ¬(t.node.oid = x.node.oid) := by
      intro he
      exact hfresh (by simp [he])
    have hfresh2 : x.node.oid ∉ pre2.map (fun t => t.node.oid) := by
      intro hm
      exact hfresh (List.mem_cons_of_mem _ hm)
    have hx : ¬(x.node.oid = t.node.oid) := fun he => hne he.symm
    rw [List.cons_append]
    show (if t.node.oid = x.node.oid then ((0 : Nat), (0 : Nat))
      else
        let p := countPrev x.node (pre2 ++ x :: post)
        if t.node.className = x.node.className ∧ t.node.objectName = [] then
          if t.node.isWidget ∧ t.node.visible then (p.1, p.2 + 1) else (p.1 + 1, p.2)
        else p) = _
    rw [if_neg hne]
    rw [ih post hfresh2]
    by_cases hcl : t.node.className = x.node.className ∧ t.node.objectName = []
    · by_cases hvis : t.node.isWidget ∧ t.node.visible
      · rw [if_pos hcl, if_pos hvis]
        have hp0 : prevClassPred x.node false t = false := by
          simp [prevClassPred, hcl.1, hcl.2, hvis.1, hvis.2]
        have hp1 : prevClassPred x.node true t = true := by
          simp [prevClassPred, hcl.1, hcl.2, hvis.1, hvis.2]
        simp [List.filter_cons, hp0, hp1]
      · rw [if_pos hcl, if_neg hvis]
        have hvb : (t.node.isWidget && t.node.visible) = false := by
          cases hw : t.node.isWidget <;> cases hv : t.node.visible <;> simp_all
        have hp0 : prevClassPred x.node false t = true := by
          simp [prevClassPred, hcl.1, hcl.2, hvb]
        have hp1 : prevClassPred x.node true t = false := by
          simp [prevClassPred, hcl.1, hcl.2, hvb]
        simp [List.filter_cons, hp0, hp1]
    · rw [if_neg hcl]
      have hboth : ¬(t.node.className = x.node.className) ∨ ¬(t.node.objectName = []) := by
        by_contra hcon
        push_neg at hcon
        exact hcl ⟨hcon.1, hcon.2⟩
      have hp : ∀ b, prevClassPred x.node b t = false := by
        intro b
        rcases hboth with h | h
        · have hb : (t.node.className == x.node.className) = false := by
            rwa [beq_eq_false_iff_ne]
          simp [prevClassPred, hb]
        · have hb : (t.node.objectName == ([] : List Char)) = false := by
            rwa [beq_eq_false_iff_ne]
          simp [prevClassPred, hb]
      simp [List.filter_cons, hp]

theorem internalGetNameAsUnnamed_eq (sibs : List QTree) (n : Node) :
    InternalGetNameAsUnnamed sibs n =
      escapeSlash ((if n.isWidget then (if n.visible then ['1'] else ['0']) else []) ++
        n.className ++ Nat.toDigits 10
          (if n.isWidget && n.visible then (countPrev n sibs).2 else (countPrev n sibs).1)) := by
  unfold InternalGetNameAsUnnamed
  by_cases hw : n.isWidget <;> by_cases hv : n.visible <;> simp [hw, hv]

theorem filter_get_decomp {α : Type} (p : α → Bool) :
    ∀ (l : List α) (k : Nat) (hk : k < (l.filter p).length),
      ∃ pre post, l = pre ++ (l.filter p).get ⟨k, hk⟩ :: post ∧
        (pre.filter p).length = k := by
  intro l
  induction l with
  | nil => intro k hk; simp at hk
  | cons t rest ih =>
    intro k hk
    by_cases hp : p t
    · cases k with
      | zero =>
        refine ⟨[], rest, ?_, by simp⟩
        have hget : ((t :: rest).filter p).get ⟨0, hk⟩ = t := by
          simp [List.filter_cons_of_pos hp]
        rw [hget]
        simp
      | succ k2 =>
        have hk2 : k2 < (rest.filter p).length := by
          have := hk
          rw [List.filter_cons_of_pos hp] at this
          simpa using this
        rcases ih k2 hk2 with ⟨pre2, post2, heq, hlen⟩
        refine ⟨t :: pre2, post2, ?_, ?_⟩
        · have hget : ((t :: rest).filter p).get ⟨k2 + 1, hk⟩ =
              (rest.filter p).get ⟨k2, hk2⟩ := by
            simp [List.filter_cons_of_pos hp]
          rw [hget, List.cons_append, ← heq]
        · rw [List.filter_cons_of_pos hp]
          simpa using hlen
    · have hpf : p t = false := by
        cases hpt : p t
        · rfl
        · exact absurd hpt hp
      have hk2 : k < (rest.filter p).length := by
        have := hk
        rw [List.filter_cons_of_neg hp] at this
        exact this
      rcases ih k hk2 with ⟨pre2, post2, heq, hlen⟩
      refine ⟨t :: pre2, post2, ?_, ?_⟩
      · have hget : ((t :: rest).filter p).get ⟨k, hk⟩ =
            (rest.filter p).get ⟨k, hk2⟩ := by
          simp [List.filter_cons_of_neg hp]
        rw [hget, List.cons_append, ← heq]
      · rw [List.filter_cons_of_neg hp]
        exact hlen

/-- C4 (amended): the synthesized name of an unnamed object is
`{0|1}{TypeTag}{Index}` when the object is a widget (digit `'1'` if it is
visible, `'0'` otherwise), and `{TypeTag}{Index}` with NO leading digit
when it is not a widget; `Index` is the number of preceding same-type
unnamed siblings of the same visibility class (visible widgets versus
everything else). -/
theorem claim_c4_core (pre post : List QTree) (x : QTree)
    (hfresh : x.node.oid ∉ pre.map (fun t => t.node.oid)) :
    InternalGetNameAsUnnamed (pre ++ x :: post) x.node =
      escapeSlash ((if x.node.isWidget then (if x.node.visible then ['1'] else ['0']) else []) ++
        x.node.className ++ Nat.toDigits 10
          (pre.filter (prevClassPred x.node (x.node.isWidget && x.node.visible))).length) := by
  rw [internalGetNameAsUnnamed_eq, countPrev_split x pre post hfresh]
  by_cases hb : (x.node.isWidget && x.node.visible) = true
  · simp only [hb, if_true]
  · have hb2 : (x.node.isWidget && x.node.visible) = false := by
      cases hbb : (x.node.isWidget && x.node.visible)
      · rfl
      · exact absurd hbb hb
    simp only [hb2, Bool.false_eq_true, if_false]

/-- C2: among the children of one parent, the `k`-th (in sibling order)
unnamed object of type tag `T` and visibility class `vc` receives the
synthesized ordinal `k`; so `N` such siblings are numbered exactly
`0, 1, …, N-1` in sibling order (three unnamed invisible buttons get
`0Button0`, `0Button1`, `0Button2`). -/
theorem claim_c2_core (children : List QTree) (T : List Char) (vc : Bool) (k : Nat)
    (hnd : (children.map (fun t => t.node.oid)).Nodup)
    (hk : k < (children.filter (sameClassUnnamed T vc)).length) :
    InternalGetNameAsUnnamed children
        ((children.filter (sameClassUnnamed T vc)).get ⟨k, hk⟩).node =
      escapeSlash
        ((if ((children.filter (sameClassUnnamed T vc)).get ⟨k, hk⟩).node.isWidget then
            (if ((children.filter (sameClassUnnamed T vc)).get ⟨k, hk⟩).node.visible
             then ['1'] else ['0'])
          else []) ++ T ++ Nat.toDigits 10 k) := by
  set x := (children.filter (sameClassUnnamed T vc)).get ⟨k, hk⟩ with hxdef
  have hmem : x ∈ children.filter (sameClassUnnamed T vc) := List.get_mem _ _ _
  rcases List.mem_filter.mp hmem with ⟨hmemc, hsame⟩
  simp only [sameClassUnnamed, Bool.and_eq_true, beq_iff_eq] at hsame
  rcases hsame with ⟨⟨hcn, hon⟩, hvc⟩
  rcases filter_get_decomp (sameClassUnnamed T vc) children k hk with ⟨pre, post, hdec, hlen⟩
  rw [← hxdef] at hdec
  have hfresh : x.node.oid ∉ pre.map (fun t => t.node.oid) := by
    intro hin
    rw [hdec, List.map_append] at hnd
    have hdisj := List.disjoint_of_nodup_append hnd
    exact hdisj hin (by simp)
  have hfc : pre.filter (prevClassPred x.node (x.node.isWidget && x.node.visible)) =
      pre.filter (sameClassUnnamed T vc) := by
    apply List.filter_congr
    intro t _
    simp only [prevClassPred, sameClassUnnamed]
    rw [hcn, hvc]
  have hmain : InternalGetNameAsUnnamed (pre ++ x :: post) x.node =
      escapeSlash ((if x.node.isWidget then (if x.node.visible then ['1'] else ['0']) else []) ++
        x.node.className ++ Nat.toDigits 10
          (pre.filter (prevClassPred x.node (x.node.isWidget && x.node.visible))).length) := by
    rw [internalGetNameAsUnnamed_eq, countPrev_split x pre post hfresh]
    by_cases hb : (x.node.isWidget && x.node.visible) = true
    · simp only [hb, if_true]
    · have hb2 : (x.node.isWidget && x.node.visible) = false := by
        cases hbb : (x.node.isWidget && x.node.visible)
        · rfl
        · exact absurd hbb hb
      simp only [hb2, Bool.false_eq_true, if_false]
  rw [← hdec] at hmain
  rw [hmain, hfc, hlen, hcn]

theorem chainSegsUnder_ne_nil_elem (rest : List QTree) :
    ∀ (a x : QTree) (s : List Char), s ∈ chainSegsUnder a rest x → s ≠ [] := by
  induction rest with
  | nil =>
    intro a x s hs
    simp only [chainSegsUnder, List.mem_singleton] at hs
    rw [hs]
    exact InternalGetName_ne_nil _ _
  | cons b rest2 ih =>
    intro a x s hs
    simp only [chainSegsUnder, List.mem_cons] at hs
    rcases hs with hs | hs
    · rw [hs]; exact InternalGetName_ne_nil _ _
    · exact ih b x s hs

theorem chainSegs_ne_nil_elem (w : World) (anc : List QTree) (x : QTree) :
    ∀ s ∈ chainSegs w anc x, s ≠ [] := by
  cases anc with
  | nil =>
    intro s hs
    simp only [chainSegs, List.mem_singleton] at hs
    rw [hs]
    exact InternalGetName_ne_nil _ _
  | cons a rest =>
    intro s hs
    simp only [chainSegs, List.mem_cons] at hs
    rcases hs with hs | hs
    · rw [hs]; exact InternalGetName_ne_nil _ _
    · exact chainSegsUnder_ne_nil_elem rest a x s hs

theorem chainSegsUnder_length (rest : List QTree) :
    ∀ (a x : QTree), (chainSegsUnder a rest x).length = rest.length + 1 := by
  induction rest with
  | nil => intro a x; rfl
  | cons b rest2 ih =>
    intro a x
    simp only [chainSegsUnder, List.length_cons, ih b x]

theorem chainSegs_length (w : World) (anc : List QTree) (x : QTree) :
    (chainSegs w anc x).length = anc.length + 1 := by
  cases anc with
  | nil => rfl
  | cons a rest =>
    simp only [chainSegs, List.length_cons, chainSegsUnder_length rest a x]

/-- C5: `GetName` returns the empty string exactly when the object itself
has an empty derived name, or some ancestor has an empty derived name, or
the top-most ancestor fails the registered-top-level-widget check;
otherwise it returns the '/'-joined chain of derived names from the root
down to the object.  (The first two cases are stated exactly as the
specification enumerates them; in this code a derived name is never
empty, so only the third case can actually fire.) -/
theorem claim_c5_getname_failures (w : World) (anc : List QTree) (obj : QTree) :
    (GetName w anc obj = [] ↔
      InternalGetName (sibsOf w anc) obj.node = [] ∨
      (∃ s ∈ (chainSegs w anc obj).dropLast, s = []) ∨
      (∃ r ∈ anc.head?, rootOk w r = false)) ∧
    (GetName w anc obj ≠ [] → GetName w anc obj = joinSegs (chainSegs w anc obj)) := by
  constructor
  · rw [getName_eq_nil_iff]
    constructor
    · rintro ⟨r, hr, hro⟩
      exact Or.inr (Or.inr ⟨r, by simp [Option.mem_def, hr], hro⟩)
    · rintro (habs | ⟨s, hs, hnil⟩ | ⟨r, hr, hro⟩)
      · exact absurd habs (InternalGetName_ne_nil _ _)
      · exact absurd hnil
          (chainSegs_ne_nil_elem w anc obj s (List.dropLast_subset _ hs))
      · exact ⟨r, by simpa [Option.mem_def] using hr, hro⟩
  · exact getName_eq_join w anc obj

/-- C6: every `'/'` in a produced name segment is replaced by `'|'`
before path composition (neither a derived nor a synthesized name ever
contains `'/'`), so a successful full name always splits into exactly one
segment per tree level, regardless of the explicit names involved. -/
theorem claim_c6_slash_escaping (w : World) (anc : List QTree) (obj : QTree)
    (sibs : List QTree) (n : Node) :
    '/' ∉ InternalGetName sibs n ∧
    '/' ∉ InternalGetNameAsUnnamed sibs n ∧
    (GetName w anc obj ≠ [] →
      (splitChar '/' (GetName w anc obj)).length = anc.length + 1) := by
  refine ⟨InternalGetName_no_slash sibs n, ?_, ?_⟩
  · unfold InternalGetNameAsUnnamed
    exact escapeSlash_no_slash _
  · intro hn
    rw [getName_eq_join w anc obj hn,
      splitChar_joinSegs _ (chainSegs_ne_nil w anc obj) (chainSegs_no_slash w anc obj),
      chainSegs_length]

mutual

theorem dumpFrom_length (w : World) : ∀ (t : QTree) (anc : List QTree),
    (DumpHierarchyFrom w anc t).length = t.size
  | QTree.mk n cs, anc => by
    show (GetName w anc (QTree.mk n cs) ::
      DumpHierarchyFrom.DumpHierarchyList w (anc ++ [QTree.mk n cs]) cs).length =
      1 + sizeList cs
    rw [List.length_cons, dumpList_length w cs (anc ++ [QTree.mk n cs])]
    omega

theorem dumpList_length (w : World) : ∀ (l : List QTree) (anc : List QTree),
    (DumpHierarchyFrom.DumpHierarchyList w anc l).length = sizeList l
  | [], _ => rfl
  | t :: ts, anc => by
    show (DumpHierarchyFrom w anc t ++
      DumpHierarchyFrom.DumpHierarchyList w anc ts).length = t.size + sizeList ts
    rw [List.length_append, dumpFrom_length w t anc, dumpList_length w ts anc]

end

/-- C7: `DumpHierarchy` performs a pure pre-order traversal: it emits one
entry per object of the forest of top-level widgets (so a single top-level
window with two leaf children yields exactly three entries), each node's
full derived name coming before its children's, children in sibling
order. -/
theorem claim_c7_dump_preorder :
    (∀ w : World, (DumpHierarchy w).length = sizeList w.topLevel) ∧
    (∀ (w : World) (t c1 c2 : QTree),
      w.topLevel = [t] → t.children = [c1, c2] → c1.children = [] → c2.children = [] →
      DumpHierarchy w = [GetName w [] t, GetName w [t] c1, GetName w [t] c2]) := by
  constructor
  · intro w
    exact dumpList_length w w.topLevel []
  · intro w t c1 c2 htl htc hc1 hc2
    rcases t with ⟨nt, cst⟩
    rcases c1 with ⟨n1, cs1⟩
    rcases c2 with ⟨n2, cs2⟩
    simp only [QTree.children] at htc hc1 hc2
    subst htc hc1 hc2
    unfold DumpHierarchy
    rw [htl]
    rfl

theorem hasTag_self_append (t r : List Char) : hasTag t (t ++ r) = true := by
  induction t with
  | nil => rfl
  | cons c cs ih => simp [hasTag, ih]

theorem hasTag_possibleLine (nm : List Char) :
    hasTag possibleTag (possibleLine nm) = true := by
  have h := hasTag_self_append possibleTag (nm ++ ['`'])
  exact h

theorem hasTag_possibleTrunc (n : Nat) :
    hasTag possibleTag (possibleTrunc n) = false := rfl

theorem hasTag_setEnvLine : hasTag possibleTag setEnvLine = false := rfl

theorem hasTag_short_possibleTrunc (n : Nat) :
    hasTag possibleShort (possibleTrunc n) = true := rfl

theorem hasTag_short_setEnvLine : hasTag possibleShort setEnvLine = false := rfl

theorem possibleLine_ne_possibleTrunc (nm : List Char) (n : Nat) :
    possibleLine nm ≠ possibleTrunc n := by
  intro he
  have h1 := hasTag_possibleLine nm
  rw [he, hasTag_possibleTrunc] at h1
  exact absurd h1 (by simp)

theorem setEnvLine_ne_possibleTrunc (n : Nat) : setEnvLine ≠ possibleTrunc n := by
  intro he
  have h1 := hasTag_short_setEnvLine
  rw [he, hasTag_short_possibleTrunc] at h1
  exact absurd h1 (by simp)

theorem shownLines_unlimited (w : World) (limit : Int) (ms : List Loc) (h : limit ≤ 0) :
    shownLines w possibleLine possibleTrunc limit ms =
      ms.map (fun l => possibleLine (GetName w l.anc l.tree)) := by
  unfold shownLines
  rw [if_pos h, if_neg (by rintro ⟨hlt, -⟩; exact absurd h (not_le.mpr hlt))]

theorem shownLines_capped (w : World) (limit : Int) (ms : List Loc)
    (h1 : 0 < limit) (h2 : limit.toNat < ms.length) :
    shownLines w possibleLine possibleTrunc limit ms =
      (ms.take limit.toNat).map (fun l => possibleLine (GetName w l.anc l.tree)) ++
      [possibleTrunc (ms.length - limit.toNat), setEnvLine] := by
  unfold shownLines
  rw [if_neg (not_le.mpr h1), if_pos ⟨h1, h2⟩]

theorem countTagged_map_possibleLine (w : World) (l : List Loc) :
    countTagged possibleTag (l.map (fun l2 => possibleLine (GetName w l2.anc l2.tree)))
      = l.length := by
  unfold countTagged
  induction l with
  | nil => rfl
  | cons a l2 ih =>
    simp only [List.map_cons, List.filter_cons, hasTag_possibleLine, if_true,
      List.length_cons, ih]

/-- C8: the candidate list of the failure diagnostic is capped by the
limit taken from the `PQOBJECTNAMING_MATCH_LIMIT` environment variable
(absent/empty means 20, the value `0` means unlimited), and when more
candidates exist than the cap, exactly `cap` `Possible match` lines are
shown, followed by exactly one truncation line naming the number of
remaining candidates (with 5 candidates and cap 3: 3 lines plus one
`.... (and 2 more!)` line). -/
theorem claim_c8_match_limit (w : World) (env : List Char) (ms : List Loc)
    (h1 : 0 < matchLimitOf env) (h2 : (matchLimitOf env).toNat < ms.length) :
    matchLimitOf [] = 20 ∧
    matchLimitOf ['0'] = 0 ∧
    (∀ (w2 : World) (ms2 : List Loc) (limit : Int), limit ≤ 0 →
      (shownLines w2 possibleLine possibleTrunc limit ms2).length = ms2.length) ∧
    countTagged possibleTag
      (shownLines w possibleLine possibleTrunc (matchLimitOf env) ms)
      = (matchLimitOf env).toNat ∧
    (shownLines w possibleLine possibleTrunc (matchLimitOf env) ms).count
      (possibleTrunc (ms.length - (matchLimitOf env).toNat)) = 1 := by
  refine ⟨rfl, rfl, ?_, ?_, ?_⟩
  · intro w2 ms2 limit hle
    rw [shownLines_unlimited w2 limit ms2 hle, List.length_map]
  · rw [shownLines_capped w (matchLimitOf env) ms h1 h2]
    unfold countTagged
    rw [List.filter_append, List.length_append]
    have hmap := countTagged_map_possibleLine w (ms.take (matchLimitOf env).toNat)
    unfold countTagged at hmap
    rw [hmap, List.length_take]
    have hrest : (List.filter (hasTag possibleTag)
        [possibleTrunc (ms.length - (matchLimitOf env).toNat), setEnvLine]).length = 0 := by
      simp [List.filter_cons, hasTag_possibleTrunc, hasTag_setEnvLine]
    rw [hrest, Nat.min_eq_left (Nat.le_of_lt h2)]
    omega
  · rw [shownLines_capped w (matchLimitOf env) ms h1 h2]
    rw [List.count_append]
    have hzero : ((ms.take (matchLimitOf env).toNat).map
        (fun l => possibleLine (GetName w l.anc l.tree))).count
        (possibleTrunc (ms.length - (matchLimitOf env).toNat)) = 0 := by
      rw [List.count_eq_zero]
      intro hmem
      rcases List.mem_map.mp hmem with ⟨l2, -, heq⟩
      exact possibleLine_ne_possibleTrunc _ _ heq
    have hset : (setEnvLine == possibleTrunc (ms.length - (matchLimitOf env).toNat)) = false :=
      beq_eq_false_iff_ne.mpr (setEnvLine_ne_possibleTrunc _)
    rw [hzero]
    simp [List.count_cons, hset]

/-- C9: a successful `GetObject` call (returning a non-null object) leaves
the process-wide diagnostic state unchanged: `lastErrorMessage` reads the
same string before and after; the state is cleared and rewritten only when
resolution fails. -/
theorem claim_c9_success_keeps_error (w : World) (env err Name : List Char) (x : QTree)
    (h : (GetObjectE w env err Name).1 = some x) :
    lastErrorMessage (GetObjectE w env err Name).2 = lastErrorMessage err := by
  unfold lastErrorMessage
  unfold GetObjectE at h ⊢
  by_cases hnil : Name = []
  · rw [if_pos hnil]
  · rw [if_neg hnil] at h ⊢
    by_cases happ : InternalGetName w.topLevel w.app.node = Name
    · rw [if_pos happ]
    · rw [if_neg happ] at h ⊢
      dsimp only [] at h ⊢
      split at h
      next l heq => simp only [heq]
      next heq => simp at h

/-- C10: when the `PQOBJECTNAMING_MATCH_LIMIT` environment variable is a
non-empty string whose `toInt` conversion is not a positive number (text
that fails to parse, `"0"`, or a negative number), the diagnostic lists
every candidate without any cap and without a truncation line: the limit
is treated as unlimited, not as the default 20. -/
theorem claim_c10_nonpositive_limit (w : World) (env : List Char) (ms : List Loc)
    (h1 : env ≠ []) (h2 : qstringToInt env ≤ 0) :
    matchLimitOf env = qstringToInt env ∧
    shownLines w possibleLine possibleTrunc (matchLimitOf env) ms =
      ms.map (fun l => possibleLine (GetName w l.anc l.tree)) ∧
    (shownLines w possibleLine possibleTrunc (matchLimitOf env) ms).length = ms.length := by
  have hm : matchLimitOf env = qstringToInt env := by
    unfold matchLimitOf
    rw [if_neg h1]
  refine ⟨hm, ?_, ?_⟩
  · rw [hm]
    exact shownLines_unlimited w _ ms (hm ▸ h2)
  · rw [hm, shownLines_unlimited w _ ms (hm ▸ h2), List.length_map]

/-- C1 (amended): for an object at a valid location whose full name is
non-empty, `GetObject (GetName x)` returns `x` itself provided the name
differs from the application object's derived name and, at every level of
the path, no earlier sibling (and, for the root, no earlier top-level
widget) carries a derived name or a synthesized-alias name equal to the
segment; without that no-earlier-duplicate condition the resolver returns
the first matching sibling, which can be a different object. -/
theorem claim_c1_roundtrip (w : World) (i : Nat) (path : List Nat)
    (r x : QTree) (anc : List QTree)
    (hr : w.topLevel[i]? = some r)
    (ha : r.ancPath path = some anc)
    (hx : r.atPath path = some x)
    (hn : GetName w anc x ≠ [])
    (happ : InternalGetName w.topLevel w.app.node ≠ GetName w anc x)
    (htop : noShadowTop w i = true)
    (hdesc : noShadowDesc r path = true) :
    GetObject w (GetName w anc x) = some x :=
  getObjectE_roundtrip w [] [] i path r x anc hr ha hx hn happ htop hdesc

/-- C1 witness: the round trip at a concrete world. -/
theorem claim_c1_roundtrip_witness :
    w1.topLevel[0]? = some wTop ∧
    wTop.ancPath [0] = some [wTop] ∧
    wTop.atPath [0] = some btn ∧
    GetName w1 [wTop] btn ≠ [] ∧
    InternalGetName w1.topLevel w1.app.node ≠ GetName w1 [wTop] btn ∧
    noShadowTop w1 0 = true ∧
    noShadowDesc wTop [0] = true ∧
    GetObject w1 (GetName w1 [wTop] btn) = some btn :=
  ⟨rfl, rfl, rfl, by decide, by decide, by decide, by decide,
    claim_c1_roundtrip w1 0 [0] wTop btn [wTop] rfl rfl rfl (by decide) (by decide)
      (by decide) (by decide)⟩

/-- C1 counterexample: two distinct top-level windows carry the same
explicit name "A"; the second window's recorded name "A" resolves to the
first window, so `GetObject (GetName x)` is not `x`, although the tree is
unchanged between the calls and the parentless `x` has no unresolvable
ancestor. -/
theorem claim_c1_counterexample :
    GetName wDup [] topA2 = "A".toList ∧
    GetObject wDup ("A".toList) = some topA1 ∧
    topA1.node.oid ≠ topA2.node.oid :=
  ⟨rfl, rfl, by decide⟩

/-- C3 (code bug at the failing input): the only child of `W` is a visible
unnamed button whose derived name is `1QPushButton0`; resolving the
recorded-while-invisible segment `0QPushButton0` fails, because the retry
with the substituted leading `'1'` restarts the scan at the second child
(the loop sets `k = 0` and the `++k` then skips index 0), so the single
child is never re-examined — even though a full rescan with the
substituted segment finds it, as the last conjunct shows.  The reverse
(`'1'` to `'0'`) fallback indeed does not exist: a visible-recorded
segment is not retried when the child is invisible at replay. -/
theorem claim_c3_retry_skips_first_child :
    GetObject w1 ("W/0QPushButton0".toList) = none ∧
    InternalGetName wTop.children btn.node = "1QPushButton0".toList ∧
    scanChildren wTop.children ("1QPushButton0".toList) = some btn ∧
    GetObject wInv ("W/1QPushButton0".toList) = none ∧
    InternalGetName wTopI.children btnI.node = "0QPushButton0".toList :=
  ⟨rfl, rfl, rfl, rfl, rfl⟩

/-- C4 counterexample: an unnamed non-widget object gets no leading
visibility digit at all: its synthesized name is `QAction0`, which starts
with `'Q'` — not with `'0'` as the claimed format
`{0|1}{TypeTag}{Index}` requires for non-widget objects. -/
theorem claim_c4_counterexample :
    InternalGetNameAsUnnamed [actT] actN = "QAction0".toList ∧
    ¬((InternalGetNameAsUnnamed [actT] actN).headD ' ' = '0' ∨
      (InternalGetNameAsUnnamed [actT] actN).headD ' ' = '1') :=
  ⟨rfl, by decide⟩

/-- C4 witness: the synthesized-name format at a concrete input. -/
theorem claim_c4_core_witness :
    btn.node.oid ∉ [actT].map (fun t => t.node.oid) ∧
    InternalGetNameAsUnnamed ([actT] ++ btn :: []) btn.node =
      escapeSlash
        ((if btn.node.isWidget then (if btn.node.visible then ['1'] else ['0']) else []) ++
          btn.node.className ++ Nat.toDigits 10
            ([actT].filter
              (prevClassPred btn.node (btn.node.isWidget && btn.node.visible))).length) :=
  ⟨by decide, claim_c4_core [actT] [] btn (by decide)⟩

/-- C2 witness: three unnamed invisible buttons under one parent; the
third (index 2 in sibling order) is named `0QPushButton2`. -/
theorem claim_c2_core_witness :
    (([ibtn 0, ibtn 1, ibtn 2].map (fun t => t.node.oid)).Nodup) ∧
    InternalGetNameAsUnnamed [ibtn 0, ibtn 1, ibtn 2] (ibtn 2).node =
      "0QPushButton2".toList := by
  refine ⟨by decide, ?_⟩
  have h := claim_c2_core [ibtn 0, ibtn 1, ibtn 2] ("QPushButton".toList) false 2
    (by decide) (by decide)
  exact h

/-- C5 witness: the successful case of the composition law at a concrete
input. -/
theorem claim_c5_witness :
    GetName w1 [wTop] btn ≠ [] ∧
    GetName w1 [wTop] btn = joinSegs (chainSegs w1 [wTop] btn) :=
  ⟨by decide, (claim_c5_getname_failures w1 [wTop] btn).2 (by decide)⟩

/-- C6 witness: segment count at a concrete input. -/
theorem claim_c6_witness :
    GetName w1 [wTop] btn ≠ [] ∧
    (splitChar '/' (GetName w1 [wTop] btn)).length = [wTop].length + 1 :=
  ⟨by decide, (claim_c6_slash_escaping w1 [wTop] btn [] appT.node).2.2 (by decide)⟩

/-- C7 witness: one top-level window with two leaves dumps to exactly
three entries, parent first. -/
theorem claim_c7_witness :
    w7.topLevel = [parentW] ∧ parentW.children = [leafA, leafB] ∧
    DumpHierarchy w7 = [GetName w7 [] parentW, GetName w7 [parentW] leafA,
      GetName w7 [parentW] leafB] :=
  ⟨rfl, rfl, claim_c7_dump_preorder.2 w7 parentW leafA leafB rfl rfl rfl rfl⟩

/-- C8 witness: five candidates and cap three give three tagged lines and
one `(and 2 more!)` truncation line. -/
theorem claim_c8_witness :
    0 < matchLimitOf ("3".toList) ∧
    (matchLimitOf ("3".toList)).toNat < (List.replicate 5 witLoc).length ∧
    countTagged possibleTag (shownLines w1 possibleLine possibleTrunc
      (matchLimitOf ("3".toList)) (List.replicate 5 witLoc)) = 3 ∧
    (shownLines w1 possibleLine possibleTrunc (matchLimitOf ("3".toList))
      (List.replicate 5 witLoc)).count (possibleTrunc 2) = 1 := by
  refine ⟨by decide, by decide, ?_, ?_⟩
  · have h := (claim_c8_match_limit w1 ("3".toList) (List.replicate 5 witLoc)
      (by decide) (by decide)).2.2.2.1
    exact h
  · have h := (claim_c8_match_limit w1 ("3".toList) (List.replicate 5 witLoc)
      (by decide) (by decide)).2.2.2.2
    exact h

/-- C9 witness: a successful resolution keeps the previous diagnostic. -/
theorem claim_c9_witness :
    (GetObjectE w1 [] ("old".toList) ("W".toList)).1 = some wTop ∧
    lastErrorMessage (GetObjectE w1 [] ("old".toList) ("W".toList)).2 =
      lastErrorMessage ("old".toList) :=
  ⟨rfl, claim_c9_success_keeps_error w1 [] ("old".toList) ("W".toList) wTop rfl⟩

/-- C10 witness: the unparsable value "abc" lists all 21 candidates,
well beyond the default cap of 20. -/
theorem claim_c10_witness :
    ("abc".toList ≠ ([] : List Char)) ∧
    qstringToInt ("abc".toList) ≤ 0 ∧
    (shownLines w1 possibleLine possibleTrunc (matchLimitOf ("abc".toList))
      (List.replicate 21 witLoc)).length = 21 := by
  refine ⟨by decide, by decide, ?_⟩
  have h := (claim_c10_nonpositive_limit w1 ("abc".toList) (List.replicate 21 witLoc)
    (by decide) (by decide)).2.2
  exact h
